import Mathlib

/-!
Shallow embedding of the binary search tree implementation
(`Node`, `BinaryTree` and its prototype methods) from the repository.

A JS `Node` holds a numeric `value` and two nullable child links
`left`/`right`; a `BinaryTree` holds a nullable `root`.  We model the
nullable-node structure as an inductive type `BinaryTree`: `BinaryTree.nil` is the
absent node (`null`) and `BinaryTree.node l v r` is a `Node` with value `v`
and children `l`, `r`.  Keys in the examples are integers, so keys are
modelled as `Int` (JS `===` and `<` on numbers become `=` and `<` on
`Int`).
-/

inductive BinaryTree where
  | nil : BinaryTree
  | node (left : BinaryTree) (value : Int) (right : BinaryTree) : BinaryTree
deriving DecidableEq, Repr

namespace BinaryTree

/-- The universe of JS values relevant to `BinaryTree.prototype.insert`:
`undefined` (the duplicate path returns it), a boolean, or the tree
object (`return this`).  The `bool` constructor exists so that claims
about a boolean return value can be stated; the implementation never
produces it. -/
inductive JSValue where
  | undef : JSValue
  | bool (b : Bool) : JSValue
  | tree (t : BinaryTree) : JSValue
deriving DecidableEq, Repr

/-- `BinaryTree.prototype.insert` walks from the root: on `value ===
current.value` it returns `undefined` having written nothing; on
`value < current.value` it goes left (attaching a fresh leaf when
`current.left === null`), otherwise right.  The iterative walk is the
recursion below; `none` models the `return undefined` duplicate path
(no assignment has run, so the structure is untouched) and `some t'`
models the successful attach followed by `return this`. -/
def insert : BinaryTree → Int → Option BinaryTree
  | nil, v => some (node nil v nil)
  | node l x r, v =>
    if v = x then none
    else if v < x then
      match insert l v with
      | none => none
      | some l' => some (node l' x r)
    else
      match insert r v with
      | none => none
      | some r' => some (node l x r')

/-- The observable outcome of one `insert` call: the JS return value
paired with the tree state after the call.  On the duplicate path the
method returned `undefined` and performed no write, so the state is the
unchanged tree; on success it returned `this`, the mutated tree. -/
def insertState (t : BinaryTree) (v : Int) : JSValue × BinaryTree :=
  match t.insert v with
  | none => (JSValue.undef, t)
  | some t' => (JSValue.tree t', t')

/-- `BinaryTree.prototype.search`: the same comparison walk as
`insert`; `true` on an exact match, `false` when the walk falls off a
`null` child (or the root is `null`). -/
def search : BinaryTree → Int → Bool
  | nil, _ => false
  | node l x r, v =>
    if v = x then true
    else if v < x then search l v
    else search r v

/-- `BinaryTree.prototype.inOrderTraversal` (Left, Root, Right):
pushes into `result` recursively; the returned array is this list. -/
def inOrderTraversal : BinaryTree → List Int
  | nil => []
  | node l x r => inOrderTraversal l ++ x :: inOrderTraversal r

/-- `BinaryTree.prototype.preOrderTraversal` (Root, Left, Right). -/
def preOrderTraversal : BinaryTree → List Int
  | nil => []
  | node l x r => x :: (preOrderTraversal l ++ preOrderTraversal r)

/-- `BinaryTree.prototype.postOrderTraversal` (Left, Right, Root). -/
def postOrderTraversal : BinaryTree → List Int
  | nil => []
  | node l x r => postOrderTraversal l ++ postOrderTraversal r ++ [x]

/-- `BinaryTree.prototype.findMin`: `null` root gives `null`; otherwise
follow `left` links while they exist and return that node's value. -/
def findMin : BinaryTree → Option Int
  | nil => none
  | node l x _ =>
    match l with
    | nil => some x
    | node ll y lr => findMin (node ll y lr)

/-- `BinaryTree.prototype.findMax`: `null` root gives `null`; otherwise
follow `right` links while they exist and return that node's value. -/
def findMax : BinaryTree → Option Int
  | nil => none
  | node _ x r =>
    match r with
    | nil => some x
    | node rl y rr => findMax (node rl y rr)

/-- `BinaryTree.prototype.getHeight`: `-1` for an absent node,
otherwise `Math.max(leftHeight, rightHeight) + 1`. -/
def getHeight : BinaryTree → Int
  | nil => -1
  | node l _ r => max (getHeight l) (getHeight r) + 1

/-- `BinaryTree.prototype.countNodes`: `0` for an absent node,
otherwise `1 + count(left) + count(right)`. -/
def countNodes : BinaryTree → Nat
  | nil => 0
  | node l _ r => 1 + countNodes l + countNodes r

/-- `BinaryTree.prototype.invert`: swaps `node.left` and `node.right`,
then recursively inverts both (already swapped) children; `null` is
returned unchanged.  In the pure embedding the mutated node is the
returned node. -/
def invert : BinaryTree → BinaryTree
  | nil => nil
  | node l x r => node (invert r) x (invert l)

/-- `true` exactly when the node link is `null`. -/
def isNil : BinaryTree → Bool
  | nil => true
  | _ => false

/-- The recursive helper `buildTreeLines` inside
`BinaryTree.prototype.visualize`: emits `prefix + connector + value`
for this node (`"└── "` when it is the last sibling, `"├── "`
otherwise), then renders the right child before the left child under
the extended prefix; the right child is last exactly when there is no
left child, and the left child is always last. -/
def buildTreeLines : BinaryTree → String → Bool → List String
  | nil, _, _ => []
  | node l x r, pref, isLast =>
    let connector := if isLast then "└── " else "├── "
    let newPref := pref ++ (if isLast then "    " else "│   ")
    (pref ++ connector ++ toString x)
      :: ((if r.isNil then [] else buildTreeLines r newPref l.isNil)
          ++ (if l.isNil then [] else buildTreeLines l newPref true))

/-- `BinaryTree.prototype.visualize`: on an empty tree it logs
`"Tree is empty"` and emits no tree lines; otherwise the first line is
the root value alone, followed by the right child's lines (last sibling
exactly when there is no left child) and then the left child's lines.
The function only reads the tree; the list of printed lines is its
observable output. -/
def visualize : BinaryTree → List String
  | nil => ["Tree is empty"]
  | node l x r =>
    toString x
      :: ((if r.isNil then [] else buildTreeLines r "" l.isNil)
          ++ (if l.isNil then [] else buildTreeLines l "" true))

/-- The driver pattern `values.map((val) => tree.insert(val))`: insert
the keys of the list left to right, a duplicate leaving the tree
unchanged (the `undefined` path writes nothing). -/
def insertList (t : BinaryTree) (vs : List Int) : BinaryTree :=
  vs.foldl (fun acc v => (acc.insert v).getD acc) t

/-- The binary-search-tree invariant the implementation maintains under
`insert`: every key in a left subtree is strictly below the node's key
and every key in a right subtree strictly above. -/
def isBST : BinaryTree → Prop
  | nil => True
  | node l x r =>
    (∀ y ∈ l.inOrderTraversal, y < x) ∧ (∀ y ∈ r.inOrderTraversal, x < y)
      ∧ l.isBST ∧ r.isBST

/-- `isBST` is decidable, so it can be checked on concrete trees. -/
def decIsBST : (t : BinaryTree) → Decidable (isBST t)
  | nil => isTrue trivial
  | node l x r =>
    have : Decidable (isBST l) := decIsBST l
    have : Decidable (isBST r) := decIsBST r
    inferInstanceAs (Decidable ((∀ y ∈ l.inOrderTraversal, y < x)
      ∧ (∀ y ∈ r.inOrderTraversal, x < y) ∧ l.isBST ∧ r.isBST))

instance : DecidablePred isBST := decIsBST

/-! Basic facts about the traversals and structural queries. -/

theorem inOrder_eq_nil_iff (t : BinaryTree) :
    t.inOrderTraversal = [] ↔ t = nil := by
  cases t <;> simp [inOrderTraversal]

theorem length_inOrder (t : BinaryTree) :
    t.inOrderTraversal.length = t.countNodes := by
  induction t with
  | nil => rfl
  | node l x r ihl ihr =>
    simp [inOrderTraversal, countNodes, ihl, ihr]
    omega

theorem preOrder_perm_inOrder (t : BinaryTree) :
    List.Perm t.preOrderTraversal t.inOrderTraversal := by
  induction t with
  | nil => exact List.Perm.refl _
  | node l x r ihl ihr =>
    exact ((ihl.append ihr).cons x).trans List.perm_middle.symm

theorem postOrder_perm_inOrder (t : BinaryTree) :
    List.Perm t.postOrderTraversal t.inOrderTraversal := by
  induction t with
  | nil => exact List.Perm.refl _
  | node l x r ihl ihr =>
    exact (List.perm_append_comm.trans
      ((ihl.append ihr).cons x)).trans List.perm_middle.symm

/-! Facts about `insert`. -/

theorem insert_perm {t t' : BinaryTree} {v : Int} (h : t.insert v = some t') :
    List.Perm t'.inOrderTraversal (v :: t.inOrderTraversal) := by
  induction t generalizing t' with
  | nil =>
    simp only [insert, Option.some.injEq] at h
    subst h
    simp [inOrderTraversal]
  | node l x r ihl ihr =>
    by_cases hvx : v = x
    · simp [insert, hvx] at h
    · by_cases hlt : v < x
      · simp only [insert, if_neg hvx, if_pos hlt] at h
        cases hl : l.insert v with
        | none => rw [hl] at h; exact absurd h (by simp)
        | some l' =>
          rw [hl] at h
          simp only [Option.some.injEq] at h
          subst h
          exact (ihl hl).append_right (x :: r.inOrderTraversal)
      · simp only [insert, if_neg hvx, if_neg hlt] at h
        cases hr : r.insert v with
        | none => rw [hr] at h; exact absurd h (by simp)
        | some r' =>
          rw [hr] at h
          simp only [Option.some.injEq] at h
          subst h
          exact ((((ihr hr).cons x).append_left l.inOrderTraversal).trans
            ((List.Perm.swap v x r.inOrderTraversal).append_left
              l.inOrderTraversal)).trans List.perm_middle

theorem insert_eq_none_iff {t : BinaryTree} (hb : t.isBST) (v : Int) :
    t.insert v = none ↔ v ∈ t.inOrderTraversal := by
  induction t with
  | nil => simp [insert, inOrderTraversal]
  | node l x r ihl ihr =>
    obtain ⟨hl, hr, hbl, hbr⟩ := hb
    by_cases hvx : v = x
    · simp [insert, hvx, inOrderTraversal]
    · by_cases hlt : v < x
      · have hnr : v ∉ r.inOrderTraversal := fun hm =>
          absurd (hr v hm) (by omega)
        simp only [insert, if_neg hvx, if_pos hlt, inOrderTraversal,
          List.mem_append, List.mem_cons]
        rw [← ihl hbl]
        cases l.insert v <;> simp [hvx, hnr]
      · have hnl : v ∉ l.inOrderTraversal := fun hm =>
          absurd (hl v hm) (by omega)
        simp only [insert, if_neg hvx, if_neg hlt, inOrderTraversal,
          List.mem_append, List.mem_cons]
        rw [← ihr hbr]
        cases r.insert v <;> simp [hvx, hnl]

theorem isBST_insert {t t' : BinaryTree} {v : Int} (hb : t.isBST)
    (h : t.insert v = some t') : t'.isBST := by
  induction t generalizing t' with
  | nil =>
    simp only [insert, Option.some.injEq] at h
    subst h
    simp [isBST, inOrderTraversal]
  | node l x r ihl ihr =>
    obtain ⟨hl, hr, hbl, hbr⟩ := hb
    by_cases hvx : v = x
    · simp [insert, hvx] at h
    · by_cases hlt : v < x
      · simp only [insert, if_neg hvx, if_pos hlt] at h
        cases hli : l.insert v with
        | none => rw [hli] at h; exact absurd h (by simp)
        | some l' =>
          rw [hli] at h
          simp only [Option.some.injEq] at h
          subst h
          refine ⟨fun y hy => ?_, hr, ihl hbl hli, hbr⟩
          rcases List.mem_cons.mp ((insert_perm hli).mem_iff.mp hy) with rfl | h1
          · exact hlt
          · exact hl y h1
      · simp only [insert, if_neg hvx, if_neg hlt] at h
        cases hri : r.insert v with
        | none => rw [hri] at h; exact absurd h (by simp)
        | some r' =>
          rw [hri] at h
          simp only [Option.some.injEq] at h
          subst h
          refine ⟨hl, fun y hy => ?_, hbl, ihr hbr hri⟩
          rcases List.mem_cons.mp ((insert_perm hri).mem_iff.mp hy) with rfl | h1
          · omega
          · exact hr y h1

theorem sorted_inOrder {t : BinaryTree} (hb : t.isBST) :
    t.inOrderTraversal.Sorted (· < ·) := by
  induction t with
  | nil => exact List.sorted_nil
  | node l x r ihl ihr =>
    obtain ⟨hl, hr, hbl, hbr⟩ := hb
    rw [inOrderTraversal, List.Sorted, List.pairwise_append]
    refine ⟨ihl hbl, List.pairwise_cons.mpr ⟨hr, ihr hbr⟩, ?_⟩
    intro a ha b hbm
    rcases List.mem_cons.mp hbm with rfl | hbm
    · exact hl a ha
    · exact lt_trans (hl a ha) (hr b hbm)

/-! Facts about `search`. -/

theorem search_insert {t t' : BinaryTree} {v : Int}
    (h : t.insert v = some t') : t'.search v = true := by
  induction t generalizing t' with
  | nil =>
    simp only [insert, Option.some.injEq] at h
    subst h
    simp [search]
  | node l x r ihl ihr =>
    by_cases hvx : v = x
    · simp [insert, hvx] at h
    · by_cases hlt : v < x
      · simp only [insert, if_neg hvx, if_pos hlt] at h
        cases hli : l.insert v with
        | none => rw [hli] at h; exact absurd h (by simp)
        | some l' =>
          rw [hli] at h
          simp only [Option.some.injEq] at h
          subst h
          simp [search, hvx, hlt, ihl hli]
      · simp only [insert, if_neg hvx, if_neg hlt] at h
        cases hri : r.insert v with
        | none => rw [hri] at h; exact absurd h (by simp)
        | some r' =>
          rw [hri] at h
          simp only [Option.some.injEq] at h
          subst h
          simp [search, hvx, hlt, ihr hri]

theorem search_eq_true_iff {t : BinaryTree} (hb : t.isBST) (v : Int) :
    t.search v = true ↔ v ∈ t.inOrderTraversal := by
  induction t with
  | nil => simp [search, inOrderTraversal]
  | node l x r ihl ihr =>
    obtain ⟨hl, hr, hbl, hbr⟩ := hb
    by_cases hvx : v = x
    · simp [search, hvx, inOrderTraversal]
    · by_cases hlt : v < x
      · have hnr : v ∉ r.inOrderTraversal := fun hm =>
          absurd (hr v hm) (by omega)
        simp [search, hvx, hlt, inOrderTraversal, ihl hbl, hnr]
      · have hnl : v ∉ l.inOrderTraversal := fun hm =>
          absurd (hl v hm) (by omega)
        simp [search, hvx, hlt, inOrderTraversal, ihr hbr, hnl]

/-! Facts about `invert`. -/

theorem invert_invert (t : BinaryTree) : t.invert.invert = t := by
  induction t with
  | nil => rfl
  | node l x r ihl ihr => simp [invert, ihl, ihr]

theorem inOrder_invert (t : BinaryTree) :
    t.invert.inOrderTraversal = t.inOrderTraversal.reverse := by
  induction t with
  | nil => rfl
  | node l x r ihl ihr =>
    simp [invert, inOrderTraversal, ihl, ihr]

theorem count_invert (t : BinaryTree) :
    t.invert.countNodes = t.countNodes := by
  induction t with
  | nil => rfl
  | node l x r ihl ihr =>
    simp [invert, countNodes, ihl, ihr]
    omega

/-! Facts about `findMin` and `findMax`. -/

theorem findMin_eq_head (t : BinaryTree) :
    t.findMin = t.inOrderTraversal.head? := by
  induction t with
  | nil => rfl
  | node l x r ihl ihr =>
    cases l with
    | nil => rfl
    | node ll y lr =>
      have h1 : (node (node ll y lr) x r).findMin = (node ll y lr).findMin :=
        rfl
      have h2 : (node (node ll y lr) x r).inOrderTraversal
          = (node ll y lr).inOrderTraversal ++ x :: r.inOrderTraversal := rfl
      have hne : (node ll y lr).inOrderTraversal ≠ [] := by
        simp [inOrderTraversal]
      rw [h1, ihl, h2]
      cases hc : (node ll y lr).inOrderTraversal with
      | nil => exact absurd hc hne
      | cons a as => rfl

theorem findMax_eq_findMin_invert (t : BinaryTree) :
    t.findMax = t.invert.findMin := by
  induction t with
  | nil => rfl
  | node l x r ihl ihr =>
    cases r with
    | nil => rfl
    | node rl y rr => exact ihr

theorem findMax_eq_getLast (t : BinaryTree) :
    t.findMax = t.inOrderTraversal.getLast? := by
  rw [findMax_eq_findMin_invert, findMin_eq_head, inOrder_invert,
    List.head?_reverse]

/-! Facts about `insertList`. -/

theorem insertList_spec (vs : List Int) :
    ∀ t : BinaryTree, t.isBST → (∀ k ∈ vs, k ∉ t.inOrderTraversal) →
      vs.Nodup →
      (insertList t vs).isBST ∧
        List.Perm (insertList t vs).inOrderTraversal
          (vs ++ t.inOrderTraversal) := by
  induction vs with
  | nil => exact fun t hb _ _ => ⟨hb, List.Perm.refl _⟩
  | cons k ks ih =>
    intro t hb hfresh hnd
    have hkt : k ∉ t.inOrderTraversal := hfresh k (by simp)
    have hins : t.insert k ≠ none := fun hn =>
      hkt ((insert_eq_none_iff hb k).mp hn)
    cases hi : t.insert k with
    | none => exact absurd hi hins
    | some t' =>
      have hstep : insertList t (k :: ks) = insertList t' ks := by
        simp [insertList, List.foldl_cons, hi]
      have hperm := insert_perm hi
      have hb' : t'.isBST := isBST_insert hb hi
      have hfresh' : ∀ k' ∈ ks, k' ∉ t'.inOrderTraversal := by
        intro k' hk' hmem
        rcases List.mem_cons.mp (hperm.mem_iff.mp hmem) with rfl | hmem'
        · exact (List.nodup_cons.mp hnd).1 hk'
        · exact hfresh k' (List.mem_cons_of_mem _ hk') hmem'
      obtain ⟨hbst, hp⟩ := ih t' hb' hfresh' (List.nodup_cons.mp hnd).2
      rw [hstep]
      refine ⟨hbst, hp.trans ?_⟩
      exact ((hperm.append_left ks).trans List.perm_middle).symm.symm

theorem insertList_nil_spec (vs : List Int) (hnd : vs.Nodup) :
    (insertList nil vs).isBST ∧
      List.Perm (insertList nil vs).inOrderTraversal vs := by
  have h := insertList_spec vs nil trivial (by simp [inOrderTraversal]) hnd
  simpa [inOrderTraversal] using h

/-- The insert sequence of the example driver in the source file. -/
def demoValues : List Int :=
  [50, 10, 30, 25, 75, 60, 90, 5, 15, 27, 35, 55, 65, 85, 95]

/-- The tree the example driver builds
(`values.map((val) => tree.insert(val))`). -/
def demoTree : BinaryTree := insertList nil demoValues

/-! Claim theorems. -/

/-- Claim C1: inserting any finite sequence of pairwise-distinct keys
into an initially empty tree and then taking the in-order traversal
yields exactly those keys (a permutation of them) in strictly
ascending order. -/
theorem c1_inOrder_sorted_of_nodup (keys : List Int) (hnd : keys.Nodup) :
    (insertList nil keys).inOrderTraversal.Sorted (· < ·) ∧
      List.Perm (insertList nil keys).inOrderTraversal keys :=
  ⟨sorted_inOrder (insertList_nil_spec keys hnd).1,
    (insertList_nil_spec keys hnd).2⟩

/-- Witness for C1 at the concrete key sequence `[3, 1, 2]`. -/
theorem c1_witness :
    ([3, 1, 2] : List Int).Nodup ∧
      ((insertList nil [3, 1, 2]).inOrderTraversal.Sorted (· < ·) ∧
        List.Perm (insertList nil [3, 1, 2]).inOrderTraversal [3, 1, 2]) :=
  ⟨by decide, c1_inOrder_sorted_of_nodup [3, 1, 2] (by decide)⟩

/-- Counterexample to C2 as stated: inserting the already-present key
`1` into the one-node tree returns JS `undefined`, not the boolean
`false` the claim requires. -/
theorem c2_counterexample :
    (node nil 1 nil).insertState 1 = (JSValue.undef, node nil 1 nil) ∧
      ((node nil 1 nil).insertState 1).1 ≠ JSValue.bool false := by
  constructor
  · rfl
  · intro h
    simp [insertState, insert] at h

/-- Claim C2 amended: on a tree satisfying the BST property (which
`insert` maintains and `invert` may break), a duplicate insert returns
`undefined` (a non-exceptional sentinel, not the boolean `false`) and
leaves the tree completely unchanged; a successful insert returns the
tree object itself (`this`) rather than a boolean, with exactly the
new key added.  The BST restriction is required: on the non-BST tree
`node (node nil 2 nil) 1 nil`, inserting the stored key 2 walks right
past the root, attaches a second node 2 and returns the tree. -/
theorem c2_duplicate_noop (t : BinaryTree) (v : Int) (hb : t.isBST) :
    (v ∈ t.inOrderTraversal → t.insertState v = (JSValue.undef, t)) ∧
      (v ∉ t.inOrderTraversal →
        ∃ t', t.insertState v = (JSValue.tree t', t') ∧
          List.Perm t'.inOrderTraversal (v :: t.inOrderTraversal)) := by
  constructor
  · intro hmem
    have hn : t.insert v = none := (insert_eq_none_iff hb v).mpr hmem
    simp [insertState, hn]
  · intro hmem
    cases hi : t.insert v with
    | none => exact absurd ((insert_eq_none_iff hb v).mp hi) hmem
    | some t' =>
      exact ⟨t', by simp [insertState, hi], insert_perm hi⟩

/-- Witness for C2's amended theorem at the one-node tree and key 1. -/
theorem c2_witness :
    (node nil 1 nil).isBST ∧
      ((1 ∈ (node nil 1 nil).inOrderTraversal →
          (node nil 1 nil).insertState 1 = (JSValue.undef, node nil 1 nil)) ∧
        (1 ∉ (node nil 1 nil).inOrderTraversal →
          ∃ t', (node nil 1 nil).insertState 1 = (JSValue.tree t', t') ∧
            List.Perm t'.inOrderTraversal
              (1 :: (node nil 1 nil).inOrderTraversal))) :=
  ⟨by decide, c2_duplicate_noop (node nil 1 nil) 1 (by decide)⟩

/-- Counterexample to C3 as stated: in the tree obtained by inserting
`[1, 2]` and then inverting (a tree the program itself reaches), the
key 2 is present yet `search 2` returns `false` — the
search-iff-present direction fails once the BST property is broken. -/
theorem c3_counterexample :
    (insertList nil [1, 2]).invert.search 2 = false ∧
      2 ∈ (insertList nil [1, 2]).invert.inOrderTraversal := by decide

/-- Claim C3 amended: on trees satisfying the BST property (which
`insert` maintains and `invert` may break), immediately after a
successful `insert k` the query `search k` returns `true`, and
`search k` returns `true` exactly when a node with key `k` is present;
the walk returns `false` when it reaches an absent child.  `search` is
a pure function of the tree, so it has no side effects. -/
theorem c3_search_correct (t : BinaryTree) (k : Int) (hb : t.isBST) :
    (∀ t', t.insert k = some t' → t'.search k = true) ∧
      (t.search k = true ↔ k ∈ t.inOrderTraversal) :=
  ⟨fun _ h => search_insert h, search_eq_true_iff hb k⟩

/-- Witness for C3's amended theorem at the one-node tree and key 2. -/
theorem c3_witness :
    (node nil 1 nil).isBST ∧
      ((∀ t', (node nil 1 nil).insert 2 = some t' → t'.search 2 = true) ∧
        ((node nil 1 nil).search 2 = true ↔
          2 ∈ (node nil 1 nil).inOrderTraversal)) :=
  ⟨by decide, c3_search_correct (node nil 1 nil) 2 (by decide)⟩

/-- Claim C4: inverting twice restores the original structure, so the
pre-order traversal after `invert(); invert();` equals the pre-order
traversal before either invert. -/
theorem c4_invert_involution (t : BinaryTree) :
    t.invert.invert = t ∧
      t.invert.invert.preOrderTraversal = t.preOrderTraversal := by
  rw [invert_invert]
  exact ⟨rfl, rfl⟩

/-- Claim C5: for a tree satisfying the BST property, the in-order
traversal after one `invert` is the exact reverse of the in-order
traversal before it; on the example tree of the driver this is the
descending sequence `[95, ..., 5]`. -/
theorem c5_inOrder_invert_reverse (t : BinaryTree) (_hb : t.isBST) :
    t.invert.inOrderTraversal = t.inOrderTraversal.reverse ∧
      demoTree.invert.inOrderTraversal =
        [95, 90, 85, 75, 65, 60, 55, 50, 35, 30, 27, 25, 15, 10, 5] :=
  ⟨inOrder_invert t, by decide⟩

/-- Witness for C5 at the driver's example tree. -/
theorem c5_witness :
    demoTree.isBST ∧
      (demoTree.invert.inOrderTraversal =
          demoTree.inOrderTraversal.reverse ∧
        demoTree.invert.inOrderTraversal =
          [95, 90, 85, 75, 65, 60, 55, 50, 35, 30, 27, 25, 15, 10, 5]) :=
  ⟨by decide, c5_inOrder_invert_reverse demoTree (by decide)⟩

/-- Counterexample to C6 as stated: inserting the driver's 15 values
into an empty tree yields a tree of height 4, not 3 — the key 15 lies
at depth 4 (50 → 10 → 30 → 25 → 15).  The `// 3` comment in the source
and the spec miscalculate the example; `getHeight` itself is the
standard height. -/
theorem c6_counterexample : demoTree.getHeight ≠ 3 := by decide

/-- Claim C6 amended: `getHeight` is `-1` on an empty (absent)
subtree, `0` on a leaf, and `1 + max` of the children's heights on an
internal node; after inserting the driver's 15 values into an empty
tree it returns 4. -/
theorem c6_getHeight_spec :
    BinaryTree.nil.getHeight = -1 ∧
      (∀ x : Int, (node nil x nil).getHeight = 0) ∧
      (∀ (l r : BinaryTree) (x : Int),
        (node l x r).getHeight = max l.getHeight r.getHeight + 1) ∧
      demoTree.getHeight = 4 :=
  ⟨rfl, fun x => by simp [getHeight], fun _ _ _ => rfl, by decide⟩

/-- Claim C7: `findMin` returns the key reached by following only left
child links (the first key of the in-order traversal) and `findMax`
the key reached by following only right child links (the last key of
the in-order traversal); both return the absent sentinel `none` on an
empty tree instead of raising. -/
theorem c7_findMin_findMax_spec (t : BinaryTree) :
    t.findMin = t.inOrderTraversal.head? ∧
      t.findMax = t.inOrderTraversal.getLast? ∧
      BinaryTree.nil.findMin = none ∧
      BinaryTree.nil.findMax = none :=
  ⟨findMin_eq_head t, findMax_eq_getLast t, rfl, rfl⟩

/-- Claim C8: `invert` only rearranges child links — the multiset of
stored keys is unchanged (the traversal after inverting is a
permutation of the traversal before) and `countNodes` is identical
before and after. -/
theorem c8_invert_preserves_keys (t : BinaryTree) :
    List.Perm t.invert.inOrderTraversal t.inOrderTraversal ∧
      t.invert.countNodes = t.countNodes :=
  ⟨by rw [inOrder_invert]; exact List.reverse_perm _, count_invert t⟩

/-- Claim C9: `visualize` puts the root alone on the first line,
renders the right child before the left child, marks the last sibling
with the corner glyph and a non-last sibling with the continuation
glyph, and on an empty tree produces only the explicit
`"Tree is empty"` message and no tree lines.  The embedding is a pure
function of the tree, matching the source, which only reads nodes. -/
theorem c9_visualize_spec :
    visualize nil = ["Tree is empty"] ∧
      (∀ (l r : BinaryTree) (x : Int),
        (visualize (node l x r)).head? = some (toString x)) ∧
      (∀ (ll lr rl rr : BinaryTree) (lv rv x : Int),
        visualize (node (node ll lv lr) x (node rl rv rr)) =
          toString x ::
            (buildTreeLines (node rl rv rr) "" false ++
              buildTreeLines (node ll lv lr) "" true)) ∧
      (∀ (l r : BinaryTree) (x : Int) (pref : String),
        (buildTreeLines (node l x r) pref true).head? =
            some (pref ++ "└── " ++ toString x) ∧
          (buildTreeLines (node l x r) pref false).head? =
            some (pref ++ "├── " ++ toString x)) ∧
      visualize (insertList nil [2, 1, 3]) = ["2", "├── 3", "└── 1"] :=
  ⟨rfl, fun _ _ _ => rfl, fun _ _ _ _ _ _ _ => rfl,
    fun _ _ _ _ => ⟨rfl, rfl⟩, by decide⟩

/-- Claim C10: the three traversals all have length `countNodes` and
contain the same multiset of keys, so the queries are mutually
consistent with the tree's shape. -/
theorem c10_traversals_consistent (t : BinaryTree) :
    t.inOrderTraversal.length = t.countNodes ∧
      t.preOrderTraversal.length = t.countNodes ∧
      t.postOrderTraversal.length = t.countNodes ∧
      List.Perm t.preOrderTraversal t.inOrderTraversal ∧
      List.Perm t.postOrderTraversal t.inOrderTraversal :=
  ⟨length_inOrder t,
    by rw [(preOrder_perm_inOrder t).length_eq]; exact length_inOrder t,
    by rw [(postOrder_perm_inOrder t).length_eq]; exact length_inOrder t,
    preOrder_perm_inOrder t,
    postOrder_perm_inOrder t⟩

end BinaryTree
